import Mathlib

/-!
Shallow embedding of `download_ribs.py` (scrape-routeviews): the even-octet
IPv4 decomposer, the version-aware sort key, the ASN→prefix aggregation and
the URL builder, together with proofs of the specification claims.

IPv4 addresses are modelled as natural numbers below `2^32`; a parsed
`ip_network` value is a (version, address, prefix-length) triple, and the
`strict=False` masking of host bits is applied where the source applies it
(at the `ip_network` call inside `extract_even_ipv4_networks`).
-/

namespace SRV

/-- Decimal digit character, mirroring Python's decimal rendering of octets. -/
def digitChar (n : Nat) : Char :=
  match n with
  | 0 => '0'
  | 1 => '1'
  | 2 => '2'
  | 3 => '3'
  | 4 => '4'
  | 5 => '5'
  | 6 => '6'
  | 7 => '7'
  | 8 => '8'
  | _ => '9'

/-- Fuelled decimal rendering loop (structural recursion on the fuel, so
that concrete values reduce inside the kernel). -/
def natDecCore : Nat → Nat → List Char
  | 0, _ => []
  | fuel + 1, n =>
    if n < 10 then [digitChar n]
    else natDecCore fuel (n / 10) ++ [digitChar (n % 10)]

/-- Decimal rendering of a natural number as a list of characters (no sign,
no leading zeros), as Python's `str` renders the octets of an address. -/
def natDecAux (n : Nat) : List Char := natDecCore (n + 1) n

theorem natDecCore_irrel (n : Nat) : ∀ f1 f2, n < f1 → n < f2 →
    natDecCore f1 n = natDecCore f2 n := by
  induction n using Nat.strong_induction_on with
  | _ n ih =>
    intro f1 f2 h1 h2
    match f1, f2 with
    | g1 + 1, g2 + 1 =>
      show (if n < 10 then [digitChar n]
          else natDecCore g1 (n / 10) ++ [digitChar (n % 10)]) =
        (if n < 10 then [digitChar n]
          else natDecCore g2 (n / 10) ++ [digitChar (n % 10)])
      by_cases h : n < 10
      · simp [h]
      · simp only [h, if_false]
        rw [ih (n / 10) (by omega) g1 g2 (by omega) (by omega)]

theorem natDecAux_eq (n : Nat) : natDecAux n =
    if n < 10 then [digitChar n] else natDecAux (n / 10) ++ [digitChar (n % 10)] := by
  show (if n < 10 then [digitChar n]
      else natDecCore n (n / 10) ++ [digitChar (n % 10)]) = _
  by_cases h : n < 10
  · simp [h]
  · simp only [h, if_false]
    rw [natDecCore_irrel (n / 10) n (n / 10 + 1) (by omega) (by omega)]
    rfl

/-- Decimal rendering of a natural number as a string. -/
def decStr (n : Nat) : String := ⟨natDecAux n⟩

/-- Numeric value of a list of decimal digit characters (the accumulator loop
that inverts `natDecAux`). -/
def parseVal (l : List Char) : Nat := l.foldl (fun a c => a * 10 + (c.toNat - 48)) 0

theorem digitChar_toNat (n : Nat) (h : n < 10) : (digitChar n).toNat = 48 + n := by
  interval_cases n <;> rfl

theorem digitChar_ne_dot (n : Nat) (h : n < 10) : digitChar n ≠ '.' := by
  interval_cases n <;> decide

theorem parseVal_append_digit (xs : List Char) (c : Char) :
    parseVal (xs ++ [c]) = parseVal xs * 10 + (c.toNat - 48) := by
  simp [parseVal, List.foldl_append]

theorem parseVal_natDecAux (n : Nat) : parseVal (natDecAux n) = n := by
  induction n using Nat.strong_induction_on with
  | _ n ih =>
    rw [natDecAux_eq]
    by_cases h : n < 10
    · rw [if_pos h]
      simp [parseVal, digitChar_toNat n h]
    · rw [if_neg h]
      rw [parseVal_append_digit, ih (n / 10) (Nat.div_lt_self (by omega) (by omega)),
        digitChar_toNat (n % 10) (Nat.mod_lt _ (by omega))]
      omega

theorem natDecAux_ne_nil (n : Nat) : natDecAux n ≠ [] := by
  rw [natDecAux_eq]
  by_cases h : n < 10 <;> simp [h]

theorem natDecAux_ne_dot (n : Nat) : ∀ c ∈ natDecAux n, c ≠ '.' := by
  induction n using Nat.strong_induction_on with
  | _ n ih =>
    rw [natDecAux_eq]
    by_cases h : n < 10
    · rw [if_pos h]
      intro c hc
      simp only [List.mem_singleton] at hc
      subst hc
      exact digitChar_ne_dot n h
    · rw [if_neg h]
      intro c hc
      rcases List.mem_append.mp hc with h1 | h1
      · exact ih (n / 10) (Nat.div_lt_self (by omega) (by omega)) c h1
      · simp only [List.mem_singleton] at h1
        subst h1
        exact digitChar_ne_dot (n % 10) (Nat.mod_lt _ (by omega))

theorem natDecAux_inj {a b : Nat} (h : natDecAux a = natDecAux b) : a = b := by
  have ha := parseVal_natDecAux a
  rw [h, parseVal_natDecAux] at ha
  omega

/-- Splitting a concatenation at the first dot is unambiguous when the pieces
before the dot are dot-free. -/
theorem append_dot_inj {a b as bs : List Char} (ha : ∀ c ∈ a, c ≠ '.')
    (hb : ∀ c ∈ b, c ≠ '.') (h : a ++ '.' :: as = b ++ '.' :: bs) :
    a = b ∧ as = bs := by
  induction a generalizing b with
  | nil =>
    cases b with
    | nil => simpa using h
    | cons d ds =>
      simp only [List.nil_append, List.cons_append, List.cons.injEq] at h
      exact absurd h.1.symm (hb d (by simp))
  | cons c cs ih =>
    cases b with
    | nil =>
      simp only [List.nil_append, List.cons_append, List.cons.injEq] at h
      exact absurd h.1 (ha c (by simp))
    | cons d ds =>
      simp only [List.cons_append, List.cons.injEq] at h
      obtain ⟨rfl, h2⟩ := h
      have := ih (fun x hx => ha x (by simp [hx])) (fun x hx => hb x (by simp [hx])) h2
      exact ⟨by rw [this.1], this.2⟩

/-- Dotted-quad decimal rendering of a 32-bit address, as Python's
`str(IPv4Address(a))` / `.exploded` renders it. -/
def ipv4Str (a : Nat) : String :=
  decStr (a / 2 ^ 24 % 256) ++ "." ++ decStr (a / 2 ^ 16 % 256) ++ "." ++
    decStr (a / 2 ^ 8 % 256) ++ "." ++ decStr (a % 256)

theorem ipv4Str_data (a : Nat) : (ipv4Str a).data =
    natDecAux (a / 2 ^ 24 % 256) ++ '.' :: (natDecAux (a / 2 ^ 16 % 256) ++
      '.' :: (natDecAux (a / 2 ^ 8 % 256) ++ '.' :: natDecAux (a % 256))) := by
  simp [ipv4Str, decStr]

theorem ipv4Str_inj {a b : Nat} (ha : a < 2 ^ 32) (hb : b < 2 ^ 32)
    (h : ipv4Str a = ipv4Str b) : a = b := by
  have hd : (ipv4Str a).data = (ipv4Str b).data := by rw [h]
  rw [ipv4Str_data, ipv4Str_data] at hd
  obtain ⟨h1, hd⟩ := append_dot_inj (natDecAux_ne_dot _) (natDecAux_ne_dot _) hd
  obtain ⟨h2, hd⟩ := append_dot_inj (natDecAux_ne_dot _) (natDecAux_ne_dot _) hd
  obtain ⟨h3, h4⟩ := append_dot_inj (natDecAux_ne_dot _) (natDecAux_ne_dot _) hd
  have e1 := natDecAux_inj h1
  have e2 := natDecAux_inj h2
  have e3 := natDecAux_inj h3
  have e4 := natDecAux_inj h4
  omega

/-- A parsed IP network as `ipaddress.ip_network` sees it before host-bit
masking: IP version, network address value, and prefix length. -/
structure IPNet where
  version : Nat
  addr : Nat
  plen : Nat
  deriving DecidableEq, Repr

/-- Host-bit masking performed by `ip_network(..., strict=False)`: clear the
low `32 - plen` bits of the address. -/
def maskAddr (addr plen : Nat) : Nat := addr - addr % 2 ^ (32 - plen)

/-- Embedding of `extract_even_ipv4_networks` (src/download_ribs.py lines
47-72): non-IPv4 networks produce no tokens; a /8-or-coarser network yields a
`"o1."` token per covered /8 subnet; up to /16 a `"o1.o2."` token per /16
subnet; up to /24 a `"o1.o2.o3."` token per /24 subnet; finer networks yield
the network address, every value of `hosts()`, and the broadcast address as
full dotted-quad strings.  Subnets are enumerated in increasing order, as
Python's `subnets(new_prefix=...)` and `hosts()` do. -/
def extract_even_ipv4_networks (net : IPNet) : List String :=
  if net.version ≠ 4 then []
  else
    let p := net.plen
    let base := maskAddr net.addr p
    if p ≤ 8 then
      (List.range (2 ^ (8 - p))).map (fun k =>
        decStr ((base + k * 2 ^ 24) / 2 ^ 24 % 256) ++ ".")
    else if p ≤ 16 then
      (List.range (2 ^ (16 - p))).map (fun k =>
        decStr ((base + k * 2 ^ 16) / 2 ^ 24 % 256) ++ "." ++
          decStr ((base + k * 2 ^ 16) / 2 ^ 16 % 256) ++ ".")
    else if p ≤ 24 then
      (List.range (2 ^ (24 - p))).map (fun k =>
        decStr ((base + k * 2 ^ 8) / 2 ^ 24 % 256) ++ "." ++
          decStr ((base + k * 2 ^ 8) / 2 ^ 16 % 256) ++ "." ++
          decStr ((base + k * 2 ^ 8) / 2 ^ 8 % 256) ++ ".")
    else
      let N := 2 ^ (32 - p)
      let hostsList :=
        if p = 32 then [base]
        else if p = 31 then [base, base + 1]
        else (List.range (N - 2)).map (fun i => base + 1 + i)
      ([base] ++ hostsList ++ [base + (N - 1)]).map ipv4Str

theorem maskAddr_eq_mul (addr plen : Nat) :
    maskAddr addr plen = 2 ^ (32 - plen) * (addr / 2 ^ (32 - plen)) := by
  unfold maskAddr
  have := Nat.div_add_mod addr (2 ^ (32 - plen))
  omega

theorem maskAddr_idem (addr plen : Nat) :
    maskAddr (maskAddr addr plen) plen = maskAddr addr plen := by
  rw [maskAddr_eq_mul addr plen]
  unfold maskAddr
  rw [Nat.mul_mod_right]
  omega

theorem div_eq_of_dvd_of_lt {c a S : Nat} (hS : 0 < S) (hdvd : S ∣ c) (h1 : c ≤ a)
    (h2 : a < c + S) : a / S = c / S := by
  obtain ⟨q, rfl⟩ := hdvd
  have ha : a = S * q + (a - S * q) := by omega
  rw [ha, Nat.mul_add_div hS, Nat.mul_div_cancel_left _ hS,
    Nat.div_eq_of_lt (by omega : a - S * q < S)]
  omega

theorem subnet_hit {b S n a : Nat} (hS : 0 < S) (hlo : b ≤ a) (hhi : a < b + n * S) :
    ∃ k, k < n ∧ b + k * S ≤ a ∧ a < b + k * S + S := by
  refine ⟨(a - b) / S, (Nat.div_lt_iff_lt_mul hS).mpr (by omega), ?_, ?_⟩ <;>
  · have h1 := Nat.div_add_mod (a - b) S
    have h2 := Nat.mod_lt (a - b) hS
    have h3 : S * ((a - b) / S) = (a - b) / S * S := Nat.mul_comm _ _
    omega

theorem ipv4Str_split1 (a : Nat) : ipv4Str a =
    (decStr (a / 2 ^ 24 % 256) ++ ".") ++
      (decStr (a / 2 ^ 16 % 256) ++ "." ++ decStr (a / 2 ^ 8 % 256) ++ "." ++ decStr (a % 256)) := by
  simp [ipv4Str, String.append_assoc]

theorem ipv4Str_split2 (a : Nat) : ipv4Str a =
    (decStr (a / 2 ^ 24 % 256) ++ "." ++ decStr (a / 2 ^ 16 % 256) ++ ".") ++
      (decStr (a / 2 ^ 8 % 256) ++ "." ++ decStr (a % 256)) := by
  simp [ipv4Str, String.append_assoc]

theorem ipv4Str_split3 (a : Nat) : ipv4Str a =
    (decStr (a / 2 ^ 24 % 256) ++ "." ++ decStr (a / 2 ^ 16 % 256) ++ "." ++
      decStr (a / 2 ^ 8 % 256) ++ ".") ++ decStr (a % 256) := by
  simp [ipv4Str, String.append_assoc]

/-- C1.  Every address contained in a /24-or-coarser IPv4 network starts
(as a string) with one of the tokens produced by
`extract_even_ipv4_networks`. -/
theorem c1_even_tokens_cover (net : IPNet) (h4 : net.version = 4) (hp : net.plen ≤ 24)
    (a : Nat) (hlo : maskAddr net.addr net.plen ≤ a)
    (hhi : a < maskAddr net.addr net.plen + 2 ^ (32 - net.plen)) :
    ∃ t ∈ extract_even_ipv4_networks net, ∃ r : String, ipv4Str a = t ++ r := by
  obtain ⟨v, addr, p⟩ := net
  simp only at h4 hp hlo hhi
  subst h4
  have hBdvd : 2 ^ (32 - p) ∣ maskAddr addr p := ⟨addr / 2 ^ (32 - p), maskAddr_eq_mul addr p⟩
  by_cases h8 : p ≤ 8
  · have hnS : 2 ^ (8 - p) * 2 ^ 24 = 2 ^ (32 - p) := by
      rw [← pow_add]; congr 1; omega
    obtain ⟨k, hk, hk1, hk2⟩ := subnet_hit (b := maskAddr addr p) (S := 2 ^ 24)
      (n := 2 ^ (8 - p)) (a := a) (by positivity) hlo (by rw [hnS]; exact hhi)
    have hSdvd : 2 ^ 24 ∣ maskAddr addr p + k * 2 ^ 24 :=
      Nat.dvd_add (dvd_trans (pow_dvd_pow 2 (by omega)) hBdvd)
        (Dvd.intro k (Nat.mul_comm _ _))
    have hdiv : a / 2 ^ 24 = (maskAddr addr p + k * 2 ^ 24) / 2 ^ 24 :=
      div_eq_of_dvd_of_lt (by positivity) hSdvd hk1 hk2
    have hex : extract_even_ipv4_networks ⟨4, addr, p⟩ =
        (List.range (2 ^ (8 - p))).map (fun k =>
          decStr ((maskAddr addr p + k * 2 ^ 24) / 2 ^ 24 % 256) ++ ".") := by
      unfold extract_even_ipv4_networks
      simp [h8]
    refine ⟨decStr ((maskAddr addr p + k * 2 ^ 24) / 2 ^ 24 % 256) ++ ".", ?_, ?_⟩
    · rw [hex]; exact List.mem_map.mpr ⟨k, List.mem_range.mpr hk, rfl⟩
    · exact ⟨decStr (a / 2 ^ 16 % 256) ++ "." ++ decStr (a / 2 ^ 8 % 256) ++ "." ++
        decStr (a % 256), by rw [← hdiv]; exact ipv4Str_split1 a⟩
  · by_cases h16 : p ≤ 16
    · have hnS : 2 ^ (16 - p) * 2 ^ 16 = 2 ^ (32 - p) := by
        rw [← pow_add]; congr 1; omega
      obtain ⟨k, hk, hk1, hk2⟩ := subnet_hit (b := maskAddr addr p) (S := 2 ^ 16)
        (n := 2 ^ (16 - p)) (a := a) (by positivity) hlo (by rw [hnS]; exact hhi)
      have hSdvd : 2 ^ 16 ∣ maskAddr addr p + k * 2 ^ 16 :=
        Nat.dvd_add (dvd_trans (pow_dvd_pow 2 (by omega)) hBdvd)
          (Dvd.intro k (Nat.mul_comm _ _))
      have hdiv : a / 2 ^ 16 = (maskAddr addr p + k * 2 ^ 16) / 2 ^ 16 :=
        div_eq_of_dvd_of_lt (by positivity) hSdvd hk1 hk2
      have ho1 : a / 2 ^ 24 = (maskAddr addr p + k * 2 ^ 16) / 2 ^ 24 := by
        have e : (2 : Nat) ^ 24 = 2 ^ 16 * 2 ^ 8 := by norm_num
        rw [e, ← Nat.div_div_eq_div_mul, ← Nat.div_div_eq_div_mul, hdiv]
      have hex : extract_even_ipv4_networks ⟨4, addr, p⟩ =
          (List.range (2 ^ (16 - p))).map (fun k =>
            decStr ((maskAddr addr p + k * 2 ^ 16) / 2 ^ 24 % 256) ++ "." ++
              decStr ((maskAddr addr p + k * 2 ^ 16) / 2 ^ 16 % 256) ++ ".") := by
        unfold extract_even_ipv4_networks
        simp [h8, h16]
      refine ⟨decStr ((maskAddr addr p + k * 2 ^ 16) / 2 ^ 24 % 256) ++ "." ++
        decStr ((maskAddr addr p + k * 2 ^ 16) / 2 ^ 16 % 256) ++ ".", ?_, ?_⟩
      · rw [hex]; exact List.mem_map.mpr ⟨k, List.mem_range.mpr hk, rfl⟩
      · exact ⟨decStr (a / 2 ^ 8 % 256) ++ "." ++ decStr (a % 256),
          by rw [← hdiv, ← ho1]; exact ipv4Str_split2 a⟩
    · have hnS : 2 ^ (24 - p) * 2 ^ 8 = 2 ^ (32 - p) := by
        rw [← pow_add]; congr 1; omega
      obtain ⟨k, hk, hk1, hk2⟩ := subnet_hit (b := maskAddr addr p) (S := 2 ^ 8)
        (n := 2 ^ (24 - p)) (a := a) (by positivity) hlo (by rw [hnS]; exact hhi)
      have hSdvd : 2 ^ 8 ∣ maskAddr addr p + k * 2 ^ 8 :=
        Nat.dvd_add (dvd_trans (pow_dvd_pow 2 (by omega)) hBdvd)
          (Dvd.intro k (Nat.mul_comm _ _))
      have hdiv : a / 2 ^ 8 = (maskAddr addr p + k * 2 ^ 8) / 2 ^ 8 :=
        div_eq_of_dvd_of_lt (by positivity) hSdvd hk1 hk2
      have ho1 : a / 2 ^ 24 = (maskAddr addr p + k * 2 ^ 8) / 2 ^ 24 := by
        have e : (2 : Nat) ^ 24 = 2 ^ 8 * 2 ^ 16 := by norm_num
        rw [e, ← Nat.div_div_eq_div_mul, ← Nat.div_div_eq_div_mul, hdiv]
      have ho2 : a / 2 ^ 16 = (maskAddr addr p + k * 2 ^ 8) / 2 ^ 16 := by
        have e : (2 : Nat) ^ 16 = 2 ^ 8 * 2 ^ 8 := by norm_num
        rw [e, ← Nat.div_div_eq_div_mul, ← Nat.div_div_eq_div_mul, hdiv]
      have hex : extract_even_ipv4_networks ⟨4, addr, p⟩ =
          (List.range (2 ^ (24 - p))).map (fun k =>
            decStr ((maskAddr addr p + k * 2 ^ 8) / 2 ^ 24 % 256) ++ "." ++
              decStr ((maskAddr addr p + k * 2 ^ 8) / 2 ^ 16 % 256) ++ "." ++
              decStr ((maskAddr addr p + k * 2 ^ 8) / 2 ^ 8 % 256) ++ ".") := by
        unfold extract_even_ipv4_networks
        simp [h8, h16, hp]
      refine ⟨decStr ((maskAddr addr p + k * 2 ^ 8) / 2 ^ 24 % 256) ++ "." ++
        decStr ((maskAddr addr p + k * 2 ^ 8) / 2 ^ 16 % 256) ++ "." ++
        decStr ((maskAddr addr p + k * 2 ^ 8) / 2 ^ 8 % 256) ++ ".", ?_, ?_⟩
      · rw [hex]; exact List.mem_map.mpr ⟨k, List.mem_range.mpr hk, rfl⟩
      · exact ⟨decStr (a % 256),
          by rw [← hdiv, ← ho1, ← ho2]; exact ipv4Str_split3 a⟩

theorem dedup_length_of_covers (A : List Nat) (b N : Nat) (hbound : b + N ≤ 2 ^ 32)
    (hmem : ∀ x, x ∈ A ↔ ∃ j, j < N ∧ x = b + j) :
    ((A.map ipv4Str).dedup).length = N := by
  rw [← List.card_toFinset]
  have h2 : (A.map ipv4Str).toFinset = (Finset.range N).image (fun j => ipv4Str (b + j)) := by
    ext s
    simp only [List.mem_toFinset, List.mem_map, Finset.mem_image, Finset.mem_range]
    constructor
    · rintro ⟨x, hx, rfl⟩
      obtain ⟨j, hj, rfl⟩ := (hmem x).mp hx
      exact ⟨j, hj, rfl⟩
    · rintro ⟨j, hj, rfl⟩
      exact ⟨b + j, (hmem _).mpr ⟨j, hj, rfl⟩, rfl⟩
  rw [h2, Finset.card_image_of_injOn, Finset.card_range]
  intro i hi j hj hij
  simp only [Finset.coe_range, Set.mem_Iio] at hi hj
  have := ipv4Str_inj (by omega) (by omega) hij
  omega

theorem pow_sub_ge_four {p : Nat} (h25 : 25 ≤ p) (h30 : p ≤ 30) : 4 ≤ 2 ^ (32 - p) := by
  calc (4 : Nat) = 2 ^ 2 := rfl
  _ ≤ 2 ^ (32 - p) := Nat.pow_le_pow_right (by norm_num) (by omega)

theorem extract_fine (addr p : Nat) (hp : 25 ≤ p) :
    extract_even_ipv4_networks ⟨4, addr, p⟩ =
      ([maskAddr addr p] ++
        (if p = 32 then [maskAddr addr p]
         else if p = 31 then [maskAddr addr p, maskAddr addr p + 1]
         else (List.range (2 ^ (32 - p) - 2)).map (fun i => maskAddr addr p + 1 + i)) ++
        [maskAddr addr p + (2 ^ (32 - p) - 1)]).map ipv4Str := by
  unfold extract_even_ipv4_networks
  simp [show ¬ p ≤ 8 by omega, show ¬ p ≤ 16 by omega, show ¬ p ≤ 24 by omega]

theorem maskAddr_bound {addr p : Nat} (haddr : addr < 2 ^ 32) (hp : p ≤ 32) :
    maskAddr addr p + 2 ^ (32 - p) ≤ 2 ^ 32 := by
  have hB : 0 < 2 ^ (32 - p) := by positivity
  have e32 : 2 ^ (32 - p) * 2 ^ p = 2 ^ 32 := by rw [← pow_add]; congr 1; omega
  have h1 : addr / 2 ^ (32 - p) < 2 ^ p := by
    rw [Nat.div_lt_iff_lt_mul hB,
      show (2 : Nat) ^ p * 2 ^ (32 - p) = 2 ^ 32 by rw [← pow_add]; congr 1; omega]
    exact haddr
  rw [maskAddr_eq_mul,
    show 2 ^ (32 - p) * (addr / 2 ^ (32 - p)) + 2 ^ (32 - p) =
      2 ^ (32 - p) * (addr / 2 ^ (32 - p) + 1) by ring]
  calc 2 ^ (32 - p) * (addr / 2 ^ (32 - p) + 1) ≤ 2 ^ (32 - p) * 2 ^ p :=
        Nat.mul_le_mul_left _ (by omega)
  _ = 2 ^ 32 := e32

/-- C2.  For a /25-or-finer IPv4 network the set of distinct tokens has
exactly `2^(32-plen)` elements and contains both the network-address string
and the broadcast-address string. -/
theorem c2_fine_token_count (net : IPNet) (h4 : net.version = 4) (hp25 : 25 ≤ net.plen)
    (hp32 : net.plen ≤ 32) (haddr : net.addr < 2 ^ 32) :
    ((extract_even_ipv4_networks net).dedup).length = 2 ^ (32 - net.plen) ∧
    ipv4Str (maskAddr net.addr net.plen) ∈ extract_even_ipv4_networks net ∧
    ipv4Str (maskAddr net.addr net.plen + (2 ^ (32 - net.plen) - 1)) ∈
      extract_even_ipv4_networks net := by
  obtain ⟨v, addr, p⟩ := net
  simp only at h4 hp25 hp32 haddr ⊢
  subst h4
  rw [extract_fine addr p hp25]
  refine ⟨?_, List.mem_map.mpr ⟨maskAddr addr p, by simp, rfl⟩,
    List.mem_map.mpr ⟨maskAddr addr p + (2 ^ (32 - p) - 1), by simp, rfl⟩⟩
  apply dedup_length_of_covers _ (maskAddr addr p) _ (maskAddr_bound haddr hp32)
  intro x
  by_cases h32 : p = 32
  · subst h32
    simp only [if_pos rfl]
    norm_num
  · by_cases h31 : p = 31
    · subst h31
      simp only [if_neg (by omega : ¬ (31 : Nat) = 32), if_pos rfl]
      norm_num
      constructor
      · rintro (rfl | rfl)
        · exact ⟨0, by omega, by omega⟩
        · exact ⟨1, by omega, by omega⟩
      · rintro ⟨j, hj, rfl⟩
        interval_cases j
        · exact Or.inl rfl
        · exact Or.inr rfl
    · have hB4 : 4 ≤ 2 ^ (32 - p) := pow_sub_ge_four hp25 (by omega)
      simp only [if_neg h32, if_neg h31, List.mem_append, List.mem_map, List.mem_range,
        List.mem_singleton]
      constructor
      · rintro ((rfl | ⟨i, hi, rfl⟩) | rfl)
        · exact ⟨0, by omega, by omega⟩
        · exact ⟨1 + i, by omega, by omega⟩
        · exact ⟨2 ^ (32 - p) - 1, by omega, by omega⟩
      · rintro ⟨j, hj, rfl⟩
        by_cases hj0 : j = 0
        · exact Or.inl (Or.inl (by omega))
        · by_cases hjl : j = 2 ^ (32 - p) - 1
          · exact Or.inr (by omega)
          · exact Or.inl (Or.inr ⟨j - 1, by omega, by omega⟩)

/-- C9.  For a /32 the decomposer emits the same address string three times
(network, host, broadcast); for a /31 each of the two addresses is emitted
twice; deduplication brings the counts back to `2^(32-plen)`. -/
theorem c9_duplicate_tokens (addr : Nat) (haddr : addr < 2 ^ 32) :
    (∃ s, extract_even_ipv4_networks ⟨4, addr, 32⟩ = [s, s, s]) ∧
    (∃ s t, s ≠ t ∧ extract_even_ipv4_networks ⟨4, addr, 31⟩ = [s, s, t, t]) ∧
    ((extract_even_ipv4_networks ⟨4, addr, 32⟩).dedup).length = 2 ^ (32 - 32) ∧
    ((extract_even_ipv4_networks ⟨4, addr, 31⟩).dedup).length = 2 ^ (32 - 31) := by
  refine ⟨⟨ipv4Str (maskAddr addr 32), ?_⟩,
    ⟨ipv4Str (maskAddr addr 31), ipv4Str (maskAddr addr 31 + 1), ?_, ?_⟩, ?_, ?_⟩
  · rw [extract_fine addr 32 (by omega)]
    norm_num
  · intro h
    have hb := maskAddr_bound haddr (show (31 : Nat) ≤ 32 by omega)
    norm_num at hb
    have := ipv4Str_inj (by omega) (by omega) h
    omega
  · rw [extract_fine addr 31 (by omega)]
    norm_num
  · rw [extract_fine addr 32 (by omega)]
    apply dedup_length_of_covers _ (maskAddr addr 32) _ (maskAddr_bound haddr (by omega))
    intro x
    simp only [if_pos rfl]
    norm_num
  · rw [extract_fine addr 31 (by omega)]
    apply dedup_length_of_covers _ (maskAddr addr 31) _ (maskAddr_bound haddr (by omega))
    intro x
    simp only [if_neg (by omega : ¬ (31 : Nat) = 32), if_pos rfl]
    norm_num
    constructor
    · rintro (rfl | rfl)
      · exact ⟨0, by omega, by omega⟩
      · exact ⟨1, by omega, by omega⟩
    · rintro ⟨j, hj, rfl⟩
      interval_cases j
      · exact Or.inl rfl
      · exact Or.inr rfl

/-- C10.  The decomposer applies `strict=False` host-bit masking: a network
given with host bits set yields exactly the tokens of the canonical masked
network; in particular `10.0.0.5/8` behaves as `10.0.0.0/8`. -/
theorem c10_host_bits_masked :
    (∀ addr p : Nat, extract_even_ipv4_networks ⟨4, addr, p⟩ =
      extract_even_ipv4_networks ⟨4, maskAddr addr p, p⟩) ∧
    extract_even_ipv4_networks ⟨4, 167772165, 8⟩ =
      extract_even_ipv4_networks ⟨4, 167772160, 8⟩ := by
  constructor
  · intro addr p
    unfold extract_even_ipv4_networks
    simp only [maskAddr_idem]
  · decide

/-- Boolean lexicographic order on lists over a linear order, with a proper
initial segment counting as smaller; this is exactly Python's ordering of
equal-type sequences (tuples of release numbers, strings of characters). -/
def lexLE [LinearOrder α] : List α → List α → Bool
  | [], _ => true
  | _ :: _, [] => false
  | a :: as, b :: bs => if a < b then true else if b < a then false else lexLE as bs

theorem lexLE_cons_iff [LinearOrder α] {x y : α} {xs ys : List α} :
    lexLE (x :: xs) (y :: ys) = true ↔ x < y ∨ (x = y ∧ lexLE xs ys = true) := by
  simp only [lexLE]
  by_cases h1 : x < y
  · simp [h1]
  · by_cases h2 : y < x
    · simp only [if_neg h1, if_pos h2]
      constructor
      · intro h; cases h
      · rintro (h | ⟨rfl, -⟩)
        · exact absurd h h1
        · exact absurd h2 (lt_irrefl _)
    · have heq : x = y := le_antisymm (le_of_not_lt h2) (le_of_not_lt h1)
      simp [h1, h2, heq]

theorem lexLE_refl [LinearOrder α] (a : List α) : lexLE a a = true := by
  induction a with
  | nil => rfl
  | cons x xs ih => rw [lexLE_cons_iff]; exact Or.inr ⟨rfl, ih⟩

theorem lexLE_total [LinearOrder α] (a b : List α) : lexLE a b = true ∨ lexLE b a = true := by
  induction a generalizing b with
  | nil => exact Or.inl rfl
  | cons x xs ih =>
    cases b with
    | nil => exact Or.inr rfl
    | cons y ys =>
      rcases lt_trichotomy x y with h | h | h
      · exact Or.inl (lexLE_cons_iff.mpr (Or.inl h))
      · subst h
        rcases ih ys with h2 | h2
        · exact Or.inl (lexLE_cons_iff.mpr (Or.inr ⟨rfl, h2⟩))
        · exact Or.inr (lexLE_cons_iff.mpr (Or.inr ⟨rfl, h2⟩))
      · exact Or.inr (lexLE_cons_iff.mpr (Or.inl h))

theorem lexLE_trans [LinearOrder α] {a b c : List α} (h1 : lexLE a b = true)
    (h2 : lexLE b c = true) : lexLE a c = true := by
  induction a generalizing b c with
  | nil => rfl
  | cons x xs ih =>
    cases b with
    | nil => exact absurd h1 (by simp [lexLE])
    | cons y ys =>
      cases c with
      | nil => exact absurd h2 (by simp [lexLE])
      | cons z zs =>
        rw [lexLE_cons_iff] at h1 h2 ⊢
        rcases h1 with h1 | ⟨rfl, h1⟩
        · rcases h2 with h2 | ⟨rfl, h2⟩
          · exact Or.inl (lt_trans h1 h2)
          · exact Or.inl h1
        · rcases h2 with h2 | ⟨rfl, h2⟩
          · exact Or.inl h2
          · exact Or.inr ⟨rfl, ih h1 h2⟩

theorem lexLE_antisymm [LinearOrder α] {a b : List α} (h1 : lexLE a b = true)
    (h2 : lexLE b a = true) : a = b := by
  induction a generalizing b with
  | nil =>
    cases b with
    | nil => rfl
    | cons y ys => exact absurd h2 (by simp [lexLE])
  | cons x xs ih =>
    cases b with
    | nil => exact absurd h1 (by simp [lexLE])
    | cons y ys =>
      rw [lexLE_cons_iff] at h1 h2
      rcases h1 with h1 | ⟨rfl, h1⟩
      · rcases h2 with h2 | ⟨rfl, h2⟩
        · exact absurd h2 (lt_asymm h1)
        · exact absurd h1 (lt_irrefl _)
      · rcases h2 with h2 | ⟨-, h2⟩
        · exact absurd h2 (lt_irrefl _)
        · rw [ih h1 h2]

/-- Splitting a character list on the dot separator ('a.b' → ['a','b'],
keeping empty groups, as Python's `"...".split` does inside version
parsing). -/
def splitOnDot : List Char → List (List Char)
  | [] => [[]]
  | c :: cs =>
    if c = '.' then [] :: splitOnDot cs
    else
      match splitOnDot cs with
      | [] => [[c]]
      | g :: gs => (c :: g) :: gs

/-- Strip trailing zero components of a release tuple (PEP 440 treats
`10.2`, `10.2.0` and `10.2.0.0` as the same version, comparing releases
padded with zeros). -/
def stripZeros (l : List Nat) : List Nat := (l.reverse.dropWhile (fun n => n == 0)).reverse

/-- Modelled from the spec: `packaging.version.Version`, which is external
library code, restricted to the domain `ip_sort_key` feeds it (the text of an
IP prefix before any "/"), per §4.3: a string of dot-separated non-empty
numeric components parses to its numeric release tuple (trailing zeros
insignificant, PEP 440 padding); anything else — in particular any IPv6
literal, which contains a colon — raises `InvalidVersion`, modelled as
`none`. -/
def parseRelease (s : String) : Option (List Nat) :=
  let groups := splitOnDot s.data
  if groups.all (fun g => !g.isEmpty && g.all (fun c => c.isDigit)) then
    some (stripZeros (groups.map parseVal))
  else none

/-- Text of `ip.partition("/")[0]`: everything before the first slash. -/
def stripMask (s : String) : String := ⟨s.data.takeWhile (fun c => c != '/')⟩

/-- Embedding of `ip_sort_key` (src/download_ribs.py lines 29-35): a string
whose pre-"/" part parses as a version gets key `(0, Version(...))`
(`Sum.inl`), anything else gets key `(1, ip)` (`Sum.inr`). -/
def ip_sort_key (ip : String) : Sum (List Nat) String :=
  match parseRelease (stripMask ip) with
  | some v => Sum.inl v
  | none => Sum.inr ip

/-- Ordering of the `ip_sort_key` tuples as Python's `sorted` compares them:
`(0, _) < (1, _)`; two version keys compare as release tuples; two string
keys compare lexicographically. -/
def keyLE : Sum (List Nat) String → Sum (List Nat) String → Bool
  | Sum.inl v1, Sum.inl v2 => lexLE v1 v2
  | Sum.inl _, Sum.inr _ => true
  | Sum.inr _, Sum.inl _ => false
  | Sum.inr s1, Sum.inr s2 => lexLE s1.data s2.data

/-- The order on prefix strings induced by `ip_sort_key`. -/
def rvLE (s t : String) : Prop := keyLE (ip_sort_key s) (ip_sort_key t) = true

instance : DecidableRel rvLE := fun s t => by unfold rvLE; infer_instance

theorem keyLE_total (k1 k2 : Sum (List Nat) String) :
    keyLE k1 k2 = true ∨ keyLE k2 k1 = true := by
  cases k1 <;> cases k2 <;> simp [keyLE] <;> apply lexLE_total

theorem keyLE_trans {k1 k2 k3 : Sum (List Nat) String} (h1 : keyLE k1 k2 = true)
    (h2 : keyLE k2 k3 = true) : keyLE k1 k3 = true := by
  cases k1 <;> cases k2 <;> cases k3 <;>
    simp only [keyLE] at h1 h2 ⊢ <;>
    first
      | rfl
      | simp at h1
      | simp at h2
      | assumption
      | exact lexLE_trans h1 h2

instance : IsTotal String rvLE := ⟨fun s t => keyLE_total (ip_sort_key s) (ip_sort_key t)⟩

instance : IsTrans String rvLE := ⟨fun _ _ _ h1 h2 => keyLE_trans h1 h2⟩

/-- Sorting a prefix list with `sorted(key=ip_sort_key)`: a stable sort by
the key order. -/
def sortPfx (l : List String) : List String := List.insertionSort rvLE l

/-- Order described by the specification (§4.3): IPv4-looking strings (those
whose pre-"/" part parses as a dotted numeric version) come before all
others and compare numerically per component; the rest compare as plain
strings. -/
def specLE (s t : String) : Prop :=
  ((parseRelease (stripMask s)).isSome = true ∧ (parseRelease (stripMask t)).isSome = false) ∨
  (∃ v w, parseRelease (stripMask s) = some v ∧ parseRelease (stripMask t) = some w ∧
    lexLE v w = true) ∨
  ((parseRelease (stripMask s)).isSome = false ∧ (parseRelease (stripMask t)).isSome = false ∧
    lexLE s.data t.data = true)

theorem rvLE_imp_specLE {s t : String} (h : rvLE s t) : specLE s t := by
  unfold rvLE ip_sort_key at h
  unfold specLE
  cases hs : parseRelease (stripMask s) with
  | some v =>
    cases ht : parseRelease (stripMask t) with
    | some w =>
      rw [hs, ht] at h
      exact Or.inr (Or.inl ⟨v, w, rfl, rfl, h⟩)
    | none =>
      exact Or.inl (by simp [hs, ht])
  | none =>
    cases ht : parseRelease (stripMask t) with
    | some w =>
      rw [hs, ht] at h
      exact absurd h (by simp [keyLE])
    | none =>
      rw [hs, ht] at h
      exact Or.inr (Or.inr ⟨by simp [hs], by simp [ht], h⟩)

/-- C3.  Sorting with `ip_sort_key` puts every version-parseable (IPv4-ish)
string before every non-parseable (IPv6) string, orders the parseable ones
by per-component numeric comparison, and the rest by plain lexicographic
string comparison; in particular `10.2.0.0/24` sorts before `10.10.0.0/24`. -/
theorem c3_sort_key_order (l : List String) :
    (sortPfx l).Sorted specLE ∧
    sortPfx ["10.10.0.0/24", "10.2.0.0/24"] = ["10.2.0.0/24", "10.10.0.0/24"] := by
  constructor
  · exact (List.sorted_insertionSort rvLE l).imp (fun h => rvLE_imp_specLE h)
  · decide

/-- Append of one prefix string to one ASN's list in the
`defaultdict(list)`: the existing entry grows, a missing entry is created
with a one-element list. -/
def dd_append : List (Nat × List String) → Nat → String → List (Nat × List String)
  | [], k, v => [(k, [v])]
  | (k2, l) :: rest, k, v =>
    if k2 = k then (k2, l ++ [v]) :: rest
    else (k2, l) :: dd_append rest k v

/-- Lookup in the association-list dictionary, with the `defaultdict`
default `[]` for missing keys. -/
def ddFind : List (Nat × List String) → Nat → List String
  | [], _ => []
  | (k2, l) :: rest, k => if k2 = k then l else ddFind rest k

/-- One iteration of the aggregation loop in `parse_rib_to_dict`
(src/download_ribs.py lines 116-121): a plain integer origin appends the
prefix string to that ASN's list; an AS_SET origin appends it to the list of
every ASN in the set. -/
def applyOrigin (d : List (Nat × List String)) (pfx : String) :
    Sum Nat (List Nat) → List (Nat × List String)
  | Sum.inl a => dd_append d a pfx
  | Sum.inr s => s.foldl (fun d2 a => dd_append d2 a pfx) d

/-- The aggregation fold of `parse_rib_to_dict` over the decoded
`(prefix, origin)` items (dict iteration, so prefix keys are distinct). -/
def build_asn_dict (recs : List (String × Sum Nat (List Nat))) : List (Nat × List String) :=
  recs.foldl (fun d r => applyOrigin d r.1 r.2) []

/-- Embedding of `parse_rib_to_dict` after the `pyasn` decode (lines
115-129): aggregate, then sort each ASN's prefix list with `ip_sort_key`. -/
def parse_rib_to_dict (recs : List (String × Sum Nat (List Nat))) : List (Nat × List String) :=
  (build_asn_dict recs).map (fun x => (x.1, sortPfx x.2))

theorem ddFind_dd_append (d : List (Nat × List String)) (k : Nat) (v : String) (a : Nat) :
    ddFind (dd_append d k v) a = if a = k then ddFind d a ++ [v] else ddFind d a := by
  induction d with
  | nil =>
    simp only [dd_append, ddFind]
    by_cases h : a = k
    · rw [if_pos h.symm, if_pos h]; rfl
    · rw [if_neg (fun h2 => h h2.symm), if_neg h]
  | cons hd rest ih =>
    obtain ⟨k2, l⟩ := hd
    simp only [dd_append]
    by_cases h2 : k2 = k
    · subst h2
      rw [if_pos rfl]
      simp only [ddFind]
      by_cases h : k2 = a
      · rw [if_pos h, if_pos h, if_pos h.symm]
      · rw [if_neg h, if_neg h, if_neg (fun h3 => h h3.symm)]
    · rw [if_neg h2]
      simp only [ddFind]
      by_cases h : k2 = a
      · rw [if_pos h, if_pos h, if_neg (fun h3 : a = k => h2 (h.trans h3))]
      · rw [if_neg h, if_neg h, ih]

theorem foldl_dd_find (s : List Nat) : ∀ (d : List (Nat × List String)) (pfx : String)
    (a : Nat), s.Nodup →
    ddFind (s.foldl (fun d2 k => dd_append d2 k pfx) d) a =
      if a ∈ s then ddFind d a ++ [pfx] else ddFind d a := by
  induction s with
  | nil => intro d pfx a _; simp
  | cons k rest ih =>
    intro d pfx a hs
    obtain ⟨hk, hrest⟩ := List.nodup_cons.mp hs
    simp only [List.foldl_cons]
    rw [ih (dd_append d k pfx) pfx a hrest, ddFind_dd_append]
    by_cases ha1 : a ∈ rest
    · have ha2 : ¬ a = k := fun h => hk (h ▸ ha1)
      rw [if_pos ha1, if_neg ha2, if_pos (List.mem_cons.mpr (Or.inr ha1))]
    · by_cases ha2 : a = k
      · rw [if_neg ha1, if_pos ha2, if_pos (List.mem_cons.mpr (Or.inl ha2))]
      · rw [if_neg ha1, if_neg ha2, if_neg (by simp [ha1, ha2])]

theorem mem_dd_append {d : List (Nat × List String)} {k : Nat} {v : String} :
    ∀ x ∈ dd_append d k v,
      x ∈ d ∨ (x.1 = k ∧ (x.2 = [v] ∨ ∃ l0, (k, l0) ∈ d ∧ x.2 = l0 ++ [v])) := by
  induction d with
  | nil =>
    intro x hx
    simp only [dd_append, List.mem_singleton] at hx
    subst hx
    exact Or.inr ⟨rfl, Or.inl rfl⟩
  | cons hd rest ih =>
    obtain ⟨k2, l⟩ := hd
    intro x hx
    simp only [dd_append] at hx
    by_cases h2 : k2 = k
    · rw [if_pos h2] at hx
      rcases List.mem_cons.mp hx with rfl | hx2
      · exact Or.inr ⟨h2, Or.inr ⟨l, by rw [← h2]; exact List.mem_cons_self _ _, rfl⟩⟩
      · exact Or.inl (List.mem_cons_of_mem _ hx2)
    · rw [if_neg h2] at hx
      rcases List.mem_cons.mp hx with rfl | hx2
      · exact Or.inl (List.mem_cons_self _ _)
      · rcases ih x hx2 with h | ⟨h1, h3⟩
        · exact Or.inl (List.mem_cons_of_mem _ h)
        · refine Or.inr ⟨h1, ?_⟩
          rcases h3 with h3 | ⟨l0, hl0, h3⟩
          · exact Or.inl h3
          · exact Or.inr ⟨l0, List.mem_cons_of_mem _ hl0, h3⟩

theorem nodup_append_singleton {l : List String} {v : String} (h1 : l.Nodup)
    (h2 : v ∉ l) : (l ++ [v]).Nodup := by
  rw [List.nodup_append]
  exact ⟨h1, List.nodup_singleton v, by simpa [List.disjoint_singleton] using h2⟩

theorem foldl_dd_inv (pfx : String) (seen : List String) (hp : pfx ∉ seen) :
    ∀ s : List Nat, s.Nodup →
    ∀ d : List (Nat × List String),
    (∀ al ∈ d, al.2 ≠ [] ∧ al.2.Nodup ∧ (∀ x ∈ al.2, x ∈ seen ∨ x = pfx) ∧
      (al.1 ∈ s → pfx ∉ al.2)) →
    ∀ al ∈ s.foldl (fun d2 k => dd_append d2 k pfx) d,
      al.2 ≠ [] ∧ al.2.Nodup ∧ ∀ x ∈ al.2, x ∈ seen ∨ x = pfx := by
  intro s
  induction s with
  | nil =>
    intro _ d hI al hal
    exact ⟨(hI al hal).1, (hI al hal).2.1, (hI al hal).2.2.1⟩
  | cons k rest ih =>
    intro hs d hI
    obtain ⟨hk, hrest⟩ := List.nodup_cons.mp hs
    simp only [List.foldl_cons]
    apply ih hrest
    intro al hal
    rcases mem_dd_append al hal with h | ⟨h1, h3⟩
    · obtain ⟨e1, e2, e3, e4⟩ := hI al h
      exact ⟨e1, e2, e3, fun hmem => e4 (List.mem_cons.mpr (Or.inr hmem))⟩
    · rcases h3 with h3 | ⟨l0, hl0, h3⟩
      · refine ⟨by rw [h3]; simp, by rw [h3]; exact List.nodup_singleton _, ?_, ?_⟩
        · intro x hx
          rw [h3, List.mem_singleton] at hx
          exact Or.inr hx
        · intro hmem
          exact absurd (h1 ▸ hmem) hk
      · obtain ⟨e1, e2, e3, e4⟩ := hI (k, l0) hl0
        have hpl0 : pfx ∉ l0 := e4 (List.mem_cons_self _ _)
        refine ⟨by rw [h3]; simp, ?_, ?_, ?_⟩
        · rw [h3]; exact nodup_append_singleton e2 hpl0
        · intro x hx
          rw [h3] at hx
          rcases List.mem_append.mp hx with hx | hx
          · exact e3 x hx
          · exact Or.inr (List.mem_singleton.mp hx)
        · intro hmem
          exact absurd (h1 ▸ hmem) hk

theorem step_inv (d : List (Nat × List String)) (pfx : String) (o : Sum Nat (List Nat))
    (seen : List String) (hp : pfx ∉ seen)
    (hnd : ∀ s, o = Sum.inr s → s.Nodup)
    (hI : ∀ al ∈ d, al.2 ≠ [] ∧ al.2.Nodup ∧ ∀ x ∈ al.2, x ∈ seen) :
    ∀ al ∈ applyOrigin d pfx o,
      al.2 ≠ [] ∧ al.2.Nodup ∧ ∀ x ∈ al.2, x ∈ seen ∨ x = pfx := by
  have hinv : ∀ s : List Nat, ∀ al ∈ d, al.2 ≠ [] ∧ al.2.Nodup ∧
      (∀ x ∈ al.2, x ∈ seen ∨ x = pfx) ∧ (al.1 ∈ s → pfx ∉ al.2) := by
    intro s al hal
    obtain ⟨e1, e2, e3⟩ := hI al hal
    exact ⟨e1, e2, fun x hx => Or.inl (e3 x hx), fun _ hpin => hp (e3 pfx hpin)⟩
  cases o with
  | inl a => exact foldl_dd_inv pfx seen hp [a] (List.nodup_singleton a) d (hinv [a])
  | inr s => exact foldl_dd_inv pfx seen hp s (hnd s rfl) d (hinv s)

theorem build_inv : ∀ (recs : List (String × Sum Nat (List Nat)))
    (d : List (Nat × List String)) (seen : List String),
    (recs.map Prod.fst).Nodup → (∀ r ∈ recs, r.1 ∉ seen) →
    (∀ r ∈ recs, ∀ s, r.2 = Sum.inr s → s.Nodup) →
    (∀ al ∈ d, al.2 ≠ [] ∧ al.2.Nodup ∧ ∀ x ∈ al.2, x ∈ seen) →
    ∀ al ∈ recs.foldl (fun d2 r => applyOrigin d2 r.1 r.2) d,
      al.2 ≠ [] ∧ al.2.Nodup := by
  intro recs
  induction recs with
  | nil =>
    intro d seen _ _ _ hI al hal
    exact ⟨(hI al hal).1, (hI al hal).2.1⟩
  | cons r rest ih =>
    intro d seen hkeys hfresh hsets hI
    rw [List.map_cons] at hkeys
    obtain ⟨hrk, hrestk⟩ := List.nodup_cons.mp hkeys
    simp only [List.foldl_cons]
    apply ih (applyOrigin d r.1 r.2) (seen ++ [r.1]) hrestk
    · intro r2 hr2 hmem
      rcases List.mem_append.mp hmem with h | h
      · exact hfresh r2 (List.mem_cons_of_mem _ hr2) h
      · exact hrk (List.mem_singleton.mp h ▸ List.mem_map_of_mem Prod.fst hr2)
    · intro r2 hr2 s hs
      exact hsets r2 (List.mem_cons_of_mem _ hr2) s hs
    · have hstep := step_inv d r.1 r.2 seen (hfresh r (List.mem_cons_self _ _))
        (fun s hs => hsets r (List.mem_cons_self _ _) s hs) hI
      intro al hal
      obtain ⟨e1, e2, e3⟩ := hstep al hal
      refine ⟨e1, e2, fun x hx => ?_⟩
      rcases e3 x hx with h | h
      · exact List.mem_append.mpr (Or.inl h)
      · exact List.mem_append.mpr (Or.inr (by simp [h]))

/-- C6.  Processing a record whose origin is an AS_SET appends the prefix
string to the list of every ASN in the set and leaves every other ASN's list
unchanged. -/
theorem c6_as_set_fanout (d : List (Nat × List String)) (pfx : String) (s : List Nat)
    (hs : s.Nodup) (a : Nat) :
    ddFind (applyOrigin d pfx (Sum.inr s)) a =
      if a ∈ s then ddFind d a ++ [pfx] else ddFind d a :=
  foldl_dd_find s d pfx a hs

theorem c6_witness :
    [7, 9].Nodup ∧
    ddFind (applyOrigin [] "203.0.113.0/24" (Sum.inr [7, 9])) 7 =
      (if 7 ∈ [7, 9] then ddFind [] 7 ++ ["203.0.113.0/24"] else ddFind [] 7) ∧
    ddFind (applyOrigin [] "203.0.113.0/24" (Sum.inr [7, 9])) 5 =
      (if 5 ∈ [7, 9] then ddFind [] 5 ++ ["203.0.113.0/24"] else ddFind [] 5) :=
  ⟨by decide, c6_as_set_fanout [] "203.0.113.0/24" [7, 9] (by decide) 7,
    c6_as_set_fanout [] "203.0.113.0/24" [7, 9] (by decide) 5⟩

/-- C7.  In the map built by `parse_rib_to_dict` from decoded items with
distinct prefix keys (a Python dict) and duplicate-free AS_SETs, every ASN
present has a non-empty prefix list and no list contains a duplicate
prefix. -/
theorem c7_nodup_nonempty (recs : List (String × Sum Nat (List Nat)))
    (hkeys : (recs.map Prod.fst).Nodup)
    (hsets : ∀ r ∈ recs, ∀ s, r.2 = Sum.inr s → s.Nodup) :
    ∀ al ∈ parse_rib_to_dict recs, al.2 ≠ [] ∧ al.2.Nodup := by
  intro al hal
  unfold parse_rib_to_dict at hal
  obtain ⟨x, hx, rfl⟩ := List.mem_map.mp hal
  have h := build_inv recs [] [] hkeys (by simp) hsets (by simp) x hx
  have hperm : List.Perm (sortPfx x.2) x.2 := List.perm_insertionSort rvLE x.2
  constructor
  · intro he
    have he2 : sortPfx x.2 = [] := he
    exact h.1 (List.eq_nil_of_length_eq_zero (by rw [← hperm.length_eq, he2]; rfl))
  · exact (hperm.nodup_iff).mpr h.2

theorem c7_witness :
    ((([("203.0.113.0/24", Sum.inl 64500), ("198.51.100.0/24", Sum.inr [64500, 64501])] :
        List (String × Sum Nat (List Nat))).map Prod.fst).Nodup) ∧
    ∀ al ∈ parse_rib_to_dict
        [("203.0.113.0/24", Sum.inl 64500), ("198.51.100.0/24", Sum.inr [64500, 64501])],
      al.2 ≠ [] ∧ al.2.Nodup :=
  ⟨by decide, c7_nodup_nonempty _ (by decide)
    (by
      intro r hr s hs
      rcases List.mem_cons.mp hr with rfl | hr2
      · cases hs
      · rcases List.mem_cons.mp hr2 with rfl | hr3
        · cases hs; decide
        · cases hr3)⟩

/-- Concatenation of a list of lists, as the nested
`for ... for even_chunk in extract_even_ipv4_networks(...)` loop visits the
tokens. -/
def concatAll : List (List α) → List α
  | [] => []
  | l :: ls => l ++ concatAll ls

/-- Order on strings by their character lists, Python's `str` comparison. -/
def strLE (s t : String) : Prop := lexLE s.data t.data = true

instance : DecidableRel strLE := fun s t => by unfold strLE; infer_instance

instance : IsTotal String strLE := ⟨fun s t => lexLE_total s.data t.data⟩

instance : IsTrans String strLE := ⟨fun _ _ _ h1 h2 => lexLE_trans h1 h2⟩

instance : IsAntisymm String strLE :=
  ⟨fun s t h1 h2 => String.ext (lexLE_antisymm h1 h2)⟩

/-- Escape the dots of a token for use in a regular expression. -/
def escapeDots (s : String) : String :=
  ⟨s.data.foldr (fun c acc => if c = '.' then '\\' :: '.' :: acc else c :: acc) []⟩

/-- Modelled from the spec: `grex`'s
`RegExpBuilder(list(prefixes)).without_end_anchor().build()`, which is
external library code.  Per §4.5 it is a pure function of the token *set*:
deterministic and independent of the insertion order of the deduplicated
tokens.  The model therefore canonicalises (deduplicate, sort) and renders a
pattern from the canonical list; the internal trie/DFA minimisation is
abstracted into the rendering step, which the claims do not inspect. -/
def grexBuild (tokens : List String) : String :=
  String.intercalate "|" ((List.insertionSort strLE tokens.dedup).map escapeDots)

/-- Embedding of `build_asn_to_even_prefixes` (src/download_ribs.py lines
75-85): for each ASN, collect the decomposition tokens of all its prefixes
into a set (skipping falsy chunks); an ASN with no tokens never gets a key
in the `defaultdict(set)`. -/
def build_asn_to_even_prefixes (d : List (Nat × List IPNet)) : List (Nat × List String) :=
  (d.map (fun x => (x.1,
    ((concatAll (x.2.map extract_even_ipv4_networks)).filter (fun c => c != "")).dedup))).filter
    (fun x => !x.2.isEmpty)

/-- Embedding of `build_asn_to_regex` (src/download_ribs.py lines 88-95):
synthesise one pattern per ASN present in the even-prefix map. -/
def build_asn_to_regex (d : List (Nat × List IPNet)) : List (Nat × String) :=
  (build_asn_to_even_prefixes d).map (fun x => (x.1, grexBuild x.2))

theorem extract_nonv4 (net : IPNet) (h : net.version ≠ 4) :
    extract_even_ipv4_networks net = [] := by
  unfold extract_even_ipv4_networks
  rw [if_pos h]

theorem concatAll_nil {l : List (List α)} (h : ∀ x ∈ l, x = []) : concatAll l = [] := by
  induction l with
  | nil => rfl
  | cons x xs ih =>
    simp only [concatAll]
    rw [h x (List.mem_cons_self _ _), ih (fun y hy => h y (List.mem_cons_of_mem _ hy))]
    rfl

theorem assoc_val_unique {β : Type} {d : List (Nat × β)} (hnd : (d.map Prod.fst).Nodup)
    {a : Nat} {l1 l2 : β} (h1 : (a, l1) ∈ d) (h2 : (a, l2) ∈ d) : l1 = l2 := by
  induction d with
  | nil => cases h1
  | cons hd rest ih =>
    rw [List.map_cons] at hnd
    obtain ⟨hk, hrest⟩ := List.nodup_cons.mp hnd
    rcases List.mem_cons.mp h1 with rfl | h1b
    · rcases List.mem_cons.mp h2 with he | h2b
      · exact (Prod.mk.injEq .. ▸ he).2.symm ▸ rfl
      · exact absurd (List.mem_map_of_mem Prod.fst h2b) hk
    · rcases List.mem_cons.mp h2 with rfl | h2b
      · exact absurd (List.mem_map_of_mem Prod.fst h1b) hk
      · exact ih hrest h1b h2b

/-- C4.  An ASN all of whose prefixes are IPv6 is absent from the regex map,
and the synthesizer is only ever invoked on non-empty token sets (the empty
case is filtered out by the `defaultdict` before `build_asn_to_regex` runs). -/
theorem c4_ipv6_only_absent (d : List (Nat × List IPNet)) (hnd : (d.map Prod.fst).Nodup)
    (asn : Nat) (ps : List IPNet) (hmem : (asn, ps) ∈ d)
    (hv6 : ∀ n ∈ ps, n.version ≠ 4) :
    asn ∉ (build_asn_to_regex d).map Prod.fst ∧
    ∀ x ∈ build_asn_to_even_prefixes d, x.2 ≠ [] := by
  constructor
  · intro hin
    rw [build_asn_to_regex, List.map_map] at hin
    obtain ⟨x, hx, hx1⟩ := List.mem_map.mp hin
    rw [build_asn_to_even_prefixes] at hx
    have hx2 := List.of_mem_filter hx
    obtain ⟨y, hy, hyx⟩ := List.mem_map.mp (List.mem_of_mem_filter hx)
    have hy1 : y.1 = asn := by
      have : x.1 = y.1 := by rw [← hyx]
      simp only [Function.comp] at hx1
      omega
    have hps : y.2 = ps := by
      refine assoc_val_unique hnd ?_ hmem
      rw [← hy1]
      exact hy
    have hext : ∀ z ∈ y.2.map extract_even_ipv4_networks, z = [] := by
      intro z hz
      obtain ⟨n, hn, rfl⟩ := List.mem_map.mp hz
      exact extract_nonv4 n (hv6 n (hps ▸ hn))
    have : x.2 = [] := by
      rw [← hyx]
      simp only
      rw [concatAll_nil hext]
      rfl
    rw [this] at hx2
    simp at hx2
  · intro x hx
    have := List.of_mem_filter hx
    intro he
    rw [he] at this
    simp at this

/-- C5.  Regex synthesis is a function of the token set: two lists of tokens
that are permutations of each other (the same set fed in different insertion
orders) synthesise byte-identical patterns. -/
theorem c5_regex_deterministic (l1 l2 : List String) (h : List.Perm l1 l2) :
    grexBuild l1 = grexBuild l2 := by
  unfold grexBuild
  have hp : List.Perm (List.insertionSort strLE l1.dedup) (List.insertionSort strLE l2.dedup) :=
    ((List.perm_insertionSort strLE l1.dedup).trans h.dedup).trans
      (List.perm_insertionSort strLE l2.dedup).symm
  rw [List.eq_of_perm_of_sorted hp (List.sorted_insertionSort strLE l1.dedup)
    (List.sorted_insertionSort strLE l2.dedup)]

theorem c5_witness :
    List.Perm ["10.1.", "10.0."] ["10.0.", "10.1."] ∧
    grexBuild ["10.1.", "10.0."] = grexBuild ["10.0.", "10.1."] :=
  ⟨by decide, c5_regex_deterministic ["10.1.", "10.0."] ["10.0.", "10.1."] (by decide)⟩

/-- A UTC timestamp at hour resolution, as `build_filename` consumes it:
days since 1970-01-01 and the hour of day. -/
structure DateTime where
  days : Nat
  hour : Nat
  deriving DecidableEq, Repr

/-- Subtraction of `timedelta(hours=1)`, with date rollover at midnight. -/
def subHour (t : DateTime) : DateTime :=
  if t.hour = 0 then ⟨t.days - 1, 23⟩ else ⟨t.days, t.hour - 1⟩

/-- Fuelled version of the `while now.hour % 2 != 0` loop of
`build_filename` (structural recursion on the fuel, so that concrete values
reduce inside the kernel). -/
def toEvenHourCore : Nat → DateTime → DateTime
  | 0, t => t
  | fuel + 1, t => if t.hour % 2 ≠ 0 then toEvenHourCore fuel (subHour t) else t

/-- The `while now.hour % 2 != 0: now -= timedelta(hours=1)` loop
(src/download_ribs.py lines 41-42). -/
def toEvenHour (t : DateTime) : DateTime := toEvenHourCore (t.days * 24 + t.hour + 1) t

/-- Gregorian calendar date (year, month, day) of a day count since
1970-01-01, the civil-from-days algorithm used by `strftime`'s rendering. -/
def civilFromDays (z : Nat) : Nat × Nat × Nat :=
  let z2 := z + 719468
  let era := z2 / 146097
  let doe := z2 % 146097
  let yoe := (doe - doe / 1460 + doe / 36524 - doe / 146097) / 365
  let y := yoe + era * 400
  let doy := doe - (365 * yoe + yoe / 4 - yoe / 100)
  let mp := (5 * doy + 2) / 153
  let d := doy - (153 * mp + 2) / 5 + 1
  let m := if mp < 10 then mp + 3 else mp - 9
  (if m ≤ 2 then y + 1 else y, m, d)

/-- Zero-padded two-digit rendering, `strftime`'s `%m`, `%d` and `%H`. -/
def pad2 (n : Nat) : String := if n < 10 then "0" ++ decStr n else decStr n

/-- Rendering of
`"https://routeviews.org/bgpdata/%Y.%m/RIBS/rib.%Y%m%d.%H00.bz2"` for a
timestamp. -/
def urlOf (t : DateTime) : String :=
  "https://routeviews.org/bgpdata/" ++ decStr (civilFromDays t.days).1 ++ "." ++
    pad2 (civilFromDays t.days).2.1 ++ "/RIBS/rib." ++ decStr (civilFromDays t.days).1 ++
    pad2 (civilFromDays t.days).2.1 ++ pad2 (civilFromDays t.days).2.2 ++ "." ++
    pad2 t.hour ++ "00.bz2"

/-- Embedding of `build_filename` (src/download_ribs.py lines 38-44): walk
the current time back to the last even hour, then render the RouteViews RIB
URL for it. -/
def build_filename (t : DateTime) : String := urlOf (toEvenHour t)

theorem toEvenHourCore_even (fuel : Nat) (t : DateTime) (h : t.hour % 2 = 0)
    (hf : 0 < fuel) : toEvenHourCore fuel t = t := by
  match fuel with
  | g + 1 =>
    show (if t.hour % 2 ≠ 0 then toEvenHourCore g (subHour t) else t) = t
    rw [if_neg (by omega)]

theorem toEvenHour_eq (t : DateTime) :
    toEvenHour t = if t.hour % 2 = 0 then t else ⟨t.days, t.hour - 1⟩ := by
  unfold toEvenHour
  by_cases h : t.hour % 2 = 0
  · rw [if_pos h]
    exact toEvenHourCore_even _ t h (by omega)
  · rw [if_neg h]
    show (if t.hour % 2 ≠ 0 then toEvenHourCore (t.days * 24 + t.hour) (subHour t) else t) = _
    rw [if_pos h]
    have hsub : subHour t = ⟨t.days, t.hour - 1⟩ := by
      unfold subHour
      rw [if_neg (by omega : ¬ t.hour = 0)]
    rw [hsub]
    exact toEvenHourCore_even _ _ (by simp; omega) (by omega)

/-- C8.  `build_filename` renders the RouteViews URL pattern for the most
recent even UTC hour: the rendered hour is even; an even current hour is
kept, an odd one is moved one hour back, and the date never changes (an odd
hour is never hour 0, so no rollover occurs). -/
theorem c8_even_hour_url (t : DateTime) (hh : t.hour < 24) :
    build_filename t = urlOf (toEvenHour t) ∧
    (toEvenHour t).hour % 2 = 0 ∧
    (t.hour % 2 = 0 → toEvenHour t = t) ∧
    (t.hour % 2 = 1 → toEvenHour t = ⟨t.days, t.hour - 1⟩ ∧
      (toEvenHour t).days = t.days) := by
  have hs := toEvenHour_eq t
  refine ⟨rfl, ?_, ?_, ?_⟩
  · by_cases h : t.hour % 2 = 0
    · rw [hs, if_pos h]
      exact h
    · rw [hs, if_neg h]
      simp only
      omega
  · intro h
    rw [hs, if_pos h]
  · intro h
    rw [hs, if_neg (by omega)]
    exact ⟨rfl, rfl⟩

theorem c8_witness :
    (⟨20282, 13⟩ : DateTime).hour < 24 ∧
    (build_filename ⟨20282, 13⟩ = urlOf (toEvenHour ⟨20282, 13⟩) ∧
      (toEvenHour (⟨20282, 13⟩ : DateTime)).hour % 2 = 0 ∧
      ((⟨20282, 13⟩ : DateTime).hour % 2 = 0 → toEvenHour ⟨20282, 13⟩ = ⟨20282, 13⟩) ∧
      ((⟨20282, 13⟩ : DateTime).hour % 2 = 1 →
        toEvenHour ⟨20282, 13⟩ = ⟨20282, 12⟩ ∧
        (toEvenHour (⟨20282, 13⟩ : DateTime)).days = 20282)) :=
  ⟨by decide, c8_even_hour_url ⟨20282, 13⟩ (by decide)⟩

theorem c1_witness :
    ((⟨4, 167772160, 16⟩ : IPNet).version = 4 ∧ (⟨4, 167772160, 16⟩ : IPNet).plen ≤ 24 ∧
      maskAddr 167772160 16 ≤ 167772935 ∧
      167772935 < maskAddr 167772160 16 + 2 ^ (32 - 16)) ∧
    "10.0." ∈ extract_even_ipv4_networks ⟨4, 167772160, 16⟩ ∧
    ∃ t ∈ extract_even_ipv4_networks ⟨4, 167772160, 16⟩, ∃ r : String,
      ipv4Str 167772935 = t ++ r :=
  ⟨⟨rfl, by decide, by decide, by decide⟩, by decide,
    c1_even_tokens_cover ⟨4, 167772160, 16⟩ rfl (by decide) 167772935 (by decide) (by decide)⟩

theorem c2_witness :
    (25 ≤ (30 : Nat) ∧ (30 : Nat) ≤ 32 ∧ (3232235776 : Nat) < 2 ^ 32) ∧
    extract_even_ipv4_networks ⟨4, 3232235776, 30⟩ =
      ["192.168.1.0", "192.168.1.1", "192.168.1.2", "192.168.1.3"] ∧
    (((extract_even_ipv4_networks ⟨4, 3232235776, 30⟩).dedup).length = 2 ^ (32 - 30) ∧
      ipv4Str (maskAddr 3232235776 30) ∈ extract_even_ipv4_networks ⟨4, 3232235776, 30⟩ ∧
      ipv4Str (maskAddr 3232235776 30 + (2 ^ (32 - 30) - 1)) ∈
        extract_even_ipv4_networks ⟨4, 3232235776, 30⟩) :=
  ⟨⟨by decide, by decide, by decide⟩, by decide,
    c2_fine_token_count ⟨4, 3232235776, 30⟩ rfl (by decide) (by decide) (by decide)⟩

theorem c4_witness :
    (([(64496, [(⟨6, 7, 32⟩ : IPNet)]), (64497, [⟨4, 167772160, 24⟩])].map Prod.fst).Nodup) ∧
    64496 ∉
      (build_asn_to_regex [(64496, [⟨6, 7, 32⟩]), (64497, [⟨4, 167772160, 24⟩])]).map Prod.fst ∧
    ∀ x ∈ build_asn_to_even_prefixes [(64496, [⟨6, 7, 32⟩]), (64497, [⟨4, 167772160, 24⟩])],
      x.2 ≠ [] :=
  ⟨by decide,
    (c4_ipv6_only_absent _ (by decide) 64496 [⟨6, 7, 32⟩] (by decide) (by decide)).1,
    (c4_ipv6_only_absent _ (by decide) 64496 [⟨6, 7, 32⟩] (by decide) (by decide)).2⟩

theorem c9_witness :
    (167772165 : Nat) < 2 ^ 32 ∧
    ((∃ s, extract_even_ipv4_networks ⟨4, 167772165, 32⟩ = [s, s, s]) ∧
      (∃ s t, s ≠ t ∧ extract_even_ipv4_networks ⟨4, 167772165, 31⟩ = [s, s, t, t]) ∧
      ((extract_even_ipv4_networks ⟨4, 167772165, 32⟩).dedup).length = 2 ^ (32 - 32) ∧
      ((extract_even_ipv4_networks ⟨4, 167772165, 31⟩).dedup).length = 2 ^ (32 - 31)) :=
  ⟨by decide, c9_duplicate_tokens 167772165 (by decide)⟩

end SRV
